import Mathlib

/-!
Verification of the match-path utilities of `crds/matches.py`.

The module under study retrieves hierarchical "match paths" for a reference
file under a context, flattens them into parameter dictionaries, derives a
minimum EXPTIME string across references, and renders match paths in several
command-line output modes.

The embedding below mirrors the Python source:

* `Item` models the nested tuple/string values a match path is built from.
* Dictionaries are association lists with Python assignment semantics
  (`dinsert` overwrites the first occurrence in place, appends otherwise;
  `dupdate` is `dict.update`).
* Falling into Python behaviour that raises or fails to terminate is
  modelled with `Option` (`none` means no value is returned).
* `strLt` is the code-point lexicographic comparison Python uses on
  strings, and `pymin` is `min` over a list (raising on the empty list).
-/

-- ===== nested values and dictionaries ==========================

/-- A Python value as it occurs inside a match path: either a string or a
tuple of further values. -/
inductive Item where
  | str (s : String)
  | tup (items : List Item)

/-- A Python dictionary from strings to strings, as an association list in
insertion order. -/
abbrev Dict := List (String × String)

/-- Python dictionary lookup: first entry with the given key. -/
def dlookup : Dict → String → Option String
  | [], _ => none
  | p :: ps, k => if p.1 = k then some p.2 else dlookup ps k

/-- Python dictionary assignment `d[k] = v`: overwrite the first entry with
key `k` in place, or append a new entry at the end. -/
def dinsert : Dict → String → String → Dict
  | [], k, v => [(k, v)]
  | p :: ps, k, v => if p.1 = k then (k, v) :: ps else p :: dinsert ps k v

/-- Python `d.update(sub)`: assign every entry of `sub` into `d` in order. -/
def dupdate (d sub : Dict) : Dict :=
  sub.foldl (fun acc p => dinsert acc p.1 p.2) d

/-- Evaluate `f` over a list, failing as soon as one element fails; this is
a Python list comprehension whose body may raise. -/
def omap (f : α → Option β) : List α → Option (List β)
  | [] => some []
  | x :: xs =>
    match f x with
    | none => none
    | some y =>
      match omap f xs with
      | none => none
      | some ys => some (y :: ys)

-- ===== Python string comparison and min ========================

/-- Code-point lexicographic strict comparison of character lists: the
order Python uses for `str < str`. -/
def lexLt : List Char → List Char → Bool
  | [], [] => false
  | [], _ :: _ => true
  | _ :: _, [] => false
  | a :: as, b :: bs => a.toNat < b.toNat || (a.toNat == b.toNat && lexLt as bs)

/-- Python string comparison `a < b`. -/
def strLt (a b : String) : Bool := lexLt a.data b.data

/-- Python `min` over a non-empty list scanned left to right, keeping the
current minimum unless a strictly smaller element appears. -/
def pyminFold (x : String) (xs : List String) : String :=
  xs.foldl (fun acc y => if strLt y acc then y else acc) x

/-- Python `min(xs)` for a list of strings; `none` models the `ValueError`
raised on an empty sequence. -/
def pymin : List String → Option String
  | [] => none
  | x :: xs => some (pyminFold x xs)

-- ===== the leaf test of _flatten_items_to_dict =================

/-- Python `len(par)` for an item: length of a string, arity of a tuple. -/
def pyLen : Item → Nat
  | .str s => s.length
  | .tup items => items.length

/-- Python `isinstance(x, basestring)`. -/
def isStr : Item → Bool
  | .str _ => true
  | .tup _ => false

/-- Python indexing `par[i]`: a character of a string (itself a string), or
a component of a tuple. -/
def pyIndex : Item → Nat → Option Item
  | .str s, i => (s.data.get? i).map (fun c => Item.str (String.singleton c))
  | .tup items, i => items.get? i

/-- The leaf test of `_flatten_items_to_dict`:
`len(par) == 2 and isinstance(par[0], basestring) and isinstance(par[1], basestring)`. -/
def isLeafItem (par : Item) : Bool :=
  pyLen par == 2 &&
    (match pyIndex par 0 with | some x => isStr x | none => false) &&
    (match pyIndex par 1 with | some x => isStr x | none => false)

/-- The string content of an item (a tuple has none). -/
def itemStr : Item → String
  | .str s => s
  | .tup _ => ""

/-- Python `par[0]` of a leaf, as a string. -/
def leafKey (par : Item) : String := itemStr ((pyIndex par 0).getD (Item.tup []))

/-- Python `par[1]` of a leaf, as a string. -/
def leafVal (par : Item) : String := itemStr ((pyIndex par 1).getD (Item.tup []))

-- ===== _flatten_items_to_dict ==================================

mutual

/-- Recursive call `_flatten_items_to_dict(par)` on a nested element.
Iterating a non-empty string never terminates in the source (each
character recurses into itself), which is modelled by `none`; iterating an
empty string yields the empty dictionary. -/
def flattenInto : Item → Option Dict
  | .str s => if s.length == 0 then some [] else none
  | .tup items => flattenGo items []

/-- The loop of `_flatten_items_to_dict`: `result` starts empty; a leaf
pair is assigned into `result`, any other element is flattened recursively
and merged with `result.update(...)`. -/
def flattenGo : List Item → Dict → Option Dict
  | [], result => some result
  | par :: rest, result =>
    if isLeafItem par then
      flattenGo rest (dinsert result (leafKey par) (leafVal par))
    else
      match flattenInto par with
      | none => none
      | some sub => flattenGo rest (dupdate result sub)

end

/-- `_flatten_items_to_dict(match_path)` from `crds/matches.py`. -/
def _flatten_items_to_dict (match_path : List Item) : Option Dict :=
  flattenGo match_path []

-- ===== well-formed paths and their leaves ======================

mutual

/-- An element on which flattening terminates: a leaf pair, or a tuple all
of whose elements are again such. -/
def goodItem : Item → Bool
  | .str s => s.length == 2
  | .tup items => isLeafItem (Item.tup items) || goodList items

/-- All elements of the list are `goodItem`. -/
def goodList : List Item → Bool
  | [] => true
  | i :: is => goodItem i && goodList is

end

mutual

/-- The leaf (name, value) pairs reachable in one element, in depth-first
order; a leaf-shaped element contributes itself. -/
def leavesItem : Item → List (String × String)
  | .str s =>
    if s.length == 2 then [(leafKey (Item.str s), leafVal (Item.str s))] else []
  | .tup items =>
    if isLeafItem (Item.tup items) then
      [(leafKey (Item.tup items), leafVal (Item.tup items))]
    else leavesList items

/-- The leaf pairs reachable in a path, in depth-first traversal order. -/
def leavesList : List Item → List (String × String)
  | [] => []
  | i :: is => leavesItem i ++ leavesList is

end

mutual

/-- Depth measure used for induction over paths. -/
def depthItem : Item → Nat
  | .str _ => 1
  | .tup items => 1 + depthList items

/-- Depth measure of a list of elements. -/
def depthList : List Item → Nat
  | [] => 1
  | i :: is => 1 + depthItem i + depthList is

end

/-- The value of the last pair with key `k` in a list of pairs, if any. -/
def lookupLast (l : List (String × String)) (k : String) : Option String :=
  match l with
  | [] => none
  | p :: ps =>
    match lookupLast ps k with
    | some v => some v
    | none => if p.1 = k then some p.2 else none

/-- Left-biased choice on optional values. -/
def oalt : Option String → Option String → Option String
  | some v, _ => some v
  | none, b => b

-- ===== exptime derivation ======================================

/-- Python `k in match_dict`. -/
def pyContains (d : Dict) (k : String) : Bool := (dlookup d k).isSome

/-- Python `match_dict[k]` under a containment guard. -/
def pyGet (d : Dict) (k : String) : String := (dlookup d k).getD ""

/-- `get_exptime(match_dict)` from `crds/matches.py`. -/
def get_exptime (match_dict : Dict) : String :=
  if pyContains match_dict "DATE-OBS" && pyContains match_dict "TIME-OBS" then
    pyGet match_dict "DATE-OBS" ++ " " ++ pyGet match_dict "TIME-OBS"
  else if pyContains match_dict "META.OBSERVATION.DATE" then
    pyGet match_dict "META.OBSERVATION.DATE"
  else "1900-01-01 00:00:00"

/-- Modelled from the spec: the external rule-mapping store (`crds.rmap`,
not part of the sources under study) answers `file_matches(reffile)` for a
loaded context; a context is modelled as that query function, returning
the list of match paths selecting each reference. -/
abbrev RContext := String → List (List Item)

/-- `find_full_match_paths(context, reffile)`: delegate to the store. -/
def find_full_match_paths (context : RContext) (reffile : String) : List (List Item) :=
  context reffile

/-- `find_match_paths_as_dict(context, reffile)`: flatten every match path
of the reference. -/
def find_match_paths_as_dict (context : RContext) (reffile : String) : Option (List Dict) :=
  omap _flatten_items_to_dict (find_full_match_paths context reffile)

/-- `_get_minimum_exptime(context, reffile)`: minimum of `get_exptime` over
the flattened match paths of one reference. -/
def _get_minimum_exptime (context : RContext) (reffile : String) : Option String :=
  match find_match_paths_as_dict context reffile with
  | none => none
  | some path_dicts => pymin (path_dicts.map get_exptime)

/-- `get_minimum_exptime(context, references)` from `crds/matches.py`. -/
def get_minimum_exptime (context : RContext) (references : List String) : Option String :=
  match omap (fun ref => _get_minimum_exptime context ref) references with
  | none => none
  | some ms => pymin ms

-- ===== the output formatter ====================================

/-- Whether a string contains a character. -/
def pyHasChar (s : String) (c : Char) : Bool := s.data.any (fun x => x == c)

/-- Python 2 `repr` quote selection for a string: a single quote unless the
string contains one and no double quote. -/
def pyreprQuote (s : String) : Char :=
  if pyHasChar s (Char.ofNat 39) && !(pyHasChar s (Char.ofNat 34)) then Char.ofNat 34
  else Char.ofNat 39

/-- A hexadecimal digit character. -/
def hexDigit (n : Nat) : Char :=
  if n < 10 then Char.ofNat (48 + n) else Char.ofNat (97 + (n - 10))

/-- Python 2 `repr` escaping of one character under quote `q`. -/
def pyreprChar (q : Char) (c : Char) : String :=
  if c = Char.ofNat 92 then String.singleton (Char.ofNat 92) ++ String.singleton (Char.ofNat 92)
  else if c = q then String.singleton (Char.ofNat 92) ++ String.singleton q
  else if c = Char.ofNat 10 then String.singleton (Char.ofNat 92) ++ "n"
  else if c = Char.ofNat 13 then String.singleton (Char.ofNat 92) ++ "r"
  else if c = Char.ofNat 9 then String.singleton (Char.ofNat 92) ++ "t"
  else if c.toNat < 32 || c.toNat > 126 then
    String.singleton (Char.ofNat 92) ++ "x" ++
      String.singleton (hexDigit (c.toNat % 256 / 16)) ++ String.singleton (hexDigit (c.toNat % 16))
  else String.singleton c

/-- Python 2 `repr` of a string: the quoted literal form. -/
def pyrepr (s : String) : String :=
  let q := pyreprQuote s
  String.singleton q ++ String.join (s.data.map (pyreprChar q)) ++ String.singleton q

/-- The command-line switches of `MatchesScript` that drive formatting. -/
structure Args where
  brief_paths : Bool
  omit_parameter_names : Bool
  tuple_format : Bool

/-- A Python value produced for one selection criterion: a (name, value)
pair or a plain string. -/
inductive PyVal where
  | str (s : String)
  | pair (a b : String)
deriving DecidableEq

/-- The value `format_prefix` returns: a string, or a tuple of uppercased
(name, value) pairs. -/
inductive Pfx where
  | str (s : String)
  | tups (l : List (String × String))
deriving DecidableEq

/-- One rendered match representation: a text line or a Python tuple. -/
inductive Rendering where
  | text (s : String)
  | tup (items : List PyVal)
deriving DecidableEq

/-- `MatchesScript.format_match_tup(tup)`: the representation of one
selection criterion under the current switches. -/
def format_match_tup (args : Args) (t : String × String) : PyVal :=
  if args.tuple_format then
    if !args.omit_parameter_names then PyVal.pair t.1 t.2 else PyVal.str t.2
  else
    if !args.omit_parameter_names then PyVal.str (t.1 ++ "=" ++ pyrepr t.2)
    else PyVal.str (pyrepr t.2)

/-- `MatchesScript.format_prefix(path)`: the representation of the context
segment (observatory, instrument, filekind) under the current switches. -/
def format_prefix (args : Args) (path : List (String × String)) : Pfx :=
  if !args.brief_paths then
    if args.tuple_format then
      Pfx.tups (path.map (fun t => (t.1.toUpper, t.2.toUpper)))
    else
      Pfx.str (String.intercalate " " ((path.drop 1).map (fun t => t.2.toUpper)))
  else Pfx.str ""

/-- Python truthiness of a produced context representation: a non-empty
string or a non-empty tuple. -/
def pfxTruthy : Pfx → Bool
  | .str s => s ≠ ""
  | .tups l => !l.isEmpty

/-- The items of a tuple-mode context representation. -/
def pfxItems : Pfx → List PyVal
  | .str _ => []
  | .tups l => l.map (fun t => PyVal.pair t.1 t.2)

/-- The string of a text-mode context representation. -/
def pfxString : Pfx → String
  | .str s => s
  | .tups _ => ""

/-- The string a text-mode criterion rendered to. -/
def pyvalString : PyVal → String
  | .str s => s
  | .pair _ _ => ""

/-- Modelled from the spec: for the formatter, the external store yields
each match path as its canonical segments of (name, value) pairs; a
context is the query function from a reference to those paths. -/
abbrev PCtx := String → List (List (List (String × String)))

/-- `MatchesScript.find_match_tuples(context, reffile)`: one rendering per
match path; the context segment `path[0]` feeds `format_prefix`, all other
segments contribute their criteria, and assembly differs between tuple
mode (tuple concatenation when the context representation is truthy) and
text mode (joined with single spaces). -/
def find_match_tuples (args : Args) (context : PCtx) (reffile : String) : List Rendering :=
  (context reffile).map (fun path =>
    let pfx := format_prefix args (path.headD [])
    let match_tuple := (path.drop 1).flatMap (fun sec => sec.map (fun t => format_match_tup args t))
    if args.tuple_format then
      if pfxTruthy pfx then Rendering.tup (pfxItems pfx ++ match_tuple)
      else Rendering.tup match_tuple
    else
      Rendering.text (pfxString pfx ++ " " ++ String.intercalate " " (match_tuple.map pyvalString)))

-- ===== concrete inputs used by witnesses =======================

/-- A leaf (name, value) tuple. -/
def mkPair (n v : String) : Item := Item.tup [Item.str n, Item.str v]

/-- A canonical three-segment match path for one reference. -/
def wpathA : List Item :=
  [Item.tup [mkPair "observatory" "hst"],
   Item.tup [mkPair "DETECTOR" "HRC"],
   Item.tup [mkPair "DATE-OBS" "2006-07-04", mkPair "TIME-OBS" "11:32:35"]]

/-- A second match path with an earlier useafter date. -/
def wpathB : List Item :=
  [Item.tup [mkPair "observatory" "hst"],
   Item.tup [mkPair "DETECTOR" "WFC"],
   Item.tup [mkPair "DATE-OBS" "2005-01-01", mkPair "TIME-OBS" "00:00:00"]]

/-- A context resolving two references to one match path each. -/
def wctx1 : RContext :=
  fun r => if r = "r1" then [wpathA] else if r = "r2" then [wpathB] else []

/-- The reference list that goes with `wctx1`. -/
def wrefs1 : List String := ["r1", "r2"]

/-- A context in which no reference has match paths. -/
def wctx6 : RContext := fun _ => []

/-- A path in which the key `A` occurs in two leaves, one nested. -/
def wpath3 : List Item :=
  [mkPair "A" "1", Item.tup [mkPair "A" "2", mkPair "B" "3"]]

/-- A path whose context segment carries upper-case parameter names. -/
def wpath5 : List Item :=
  [Item.tup [mkPair "OBSERVATORY" "HST", mkPair "instrument" "acs"],
   Item.tup [mkPair "DETECTOR" "HRC"],
   Item.tup [mkPair "DATE-OBS" "2006-07-04", mkPair "TIME-OBS" "11:32:35"]]

/-- A flattened dictionary carrying a date and a time. -/
def d2w : Dict := [("DATE-OBS", "2006-07-04"), ("TIME-OBS", "11:32:35")]

/-- A flattened dictionary whose date and time spell out the sentinel. -/
def d2c : Dict := [("DATE-OBS", "1900-01-01"), ("TIME-OBS", "00:00:00")]

/-- A dictionary with only the exptime-relevant keys. -/
def d10a : Dict := [("DATE-OBS", "2006-07-04"), ("TIME-OBS", "11:32:35")]

/-- The same exptime-relevant bindings in another order plus an extra key. -/
def d10b : Dict :=
  [("TIME-OBS", "11:32:35"), ("DATE-OBS", "2006-07-04"), ("DETECTOR", "HRC")]

/-- A formatter context with one two-segment match path. -/
def wpctx7 : PCtx := fun _ => [[[("observatory", "hst")], [("DETECTOR", "HRC")]]]

-- ===== helper lemmas: dictionaries =============================

theorem oalt_none_right (a : Option String) : oalt a none = a := by
  cases a <;> rfl

theorem oalt_assoc (a b c : Option String) :
    oalt (oalt a b) c = oalt a (oalt b c) := by
  cases a <;> rfl

theorem dlookup_dinsert (d : Dict) (k v k2 : String) :
    dlookup (dinsert d k v) k2 = if k = k2 then some v else dlookup d k2 := by
  induction d with
  | nil => simp [dinsert, dlookup]
  | cons p ps ih =>
    by_cases h : p.1 = k
    · subst h
      by_cases h2 : p.1 = k2
      · subst h2; simp [dinsert, dlookup]
      · simp [dinsert, dlookup, h2]
    · by_cases h2 : p.1 = k2
      · subst h2
        have hk : ¬ k = p.1 := fun he => h he.symm
        simp [dinsert, dlookup, h, hk]
      · simp [dinsert, dlookup, h, h2, ih]

theorem mem_keys_dinsert (d : Dict) (k v k2 : String) :
    k2 ∈ (dinsert d k v).map Prod.fst ↔ k2 = k ∨ k2 ∈ d.map Prod.fst := by
  induction d with
  | nil => simp [dinsert]
  | cons p ps ih =>
    by_cases h : p.1 = k
    · subst h; simp [dinsert]
    · simp [dinsert, h, ih]; tauto

theorem nodup_keys_dinsert (d : Dict) (k v : String)
    (h : (d.map Prod.fst).Nodup) : ((dinsert d k v).map Prod.fst).Nodup := by
  induction d with
  | nil => simp [dinsert]
  | cons p ps ih =>
    simp only [List.map_cons, List.nodup_cons] at h
    by_cases hk : p.1 = k
    · subst hk; simpa [dinsert] using h
    · have hstep : dinsert (p :: ps) k v = p :: dinsert ps k v := by
        simp [dinsert, hk]
      rw [hstep]
      simp only [List.map_cons, List.nodup_cons]
      refine ⟨?_, ih h.2⟩
      rw [mem_keys_dinsert]
      rintro (rfl | hm)
      · exact hk rfl
      · exact h.1 hm

theorem dlookup_dupdate (d sub : Dict) (k : String) :
    dlookup (dupdate d sub) k = oalt (lookupLast sub k) (dlookup d k) := by
  induction sub generalizing d with
  | nil => simp [dupdate, lookupLast, oalt]
  | cons p ps ih =>
    have hstep : dupdate d (p :: ps) = dupdate (dinsert d p.1 p.2) ps := by
      simp [dupdate]
    rw [hstep, ih, dlookup_dinsert]
    show oalt (lookupLast ps k) _ =
      oalt (match lookupLast ps k with
            | some v => some v
            | none => if p.1 = k then some p.2 else none) (dlookup d k)
    cases hl : lookupLast ps k with
    | some v => rfl
    | none => by_cases hk : p.1 = k <;> simp [oalt, hk]

theorem nodup_keys_dupdate (d sub : Dict)
    (h : (d.map Prod.fst).Nodup) : ((dupdate d sub).map Prod.fst).Nodup := by
  induction sub generalizing d with
  | nil => simpa [dupdate] using h
  | cons p ps ih =>
    have hstep : dupdate d (p :: ps) = dupdate (dinsert d p.1 p.2) ps := by
      simp [dupdate]
    rw [hstep]
    exact ih _ (nodup_keys_dinsert _ _ _ h)

theorem dlookup_eq_none (d : Dict) (k : String) :
    dlookup d k = none ↔ k ∉ d.map Prod.fst := by
  induction d with
  | nil => simp [dlookup]
  | cons p ps ih =>
    by_cases h : p.1 = k
    · subst h; simp [dlookup]
    · have hk : ¬ k = p.1 := fun he => h he.symm
      simp [dlookup, h, ih, hk]

theorem lookupLast_eq_none (l : List (String × String)) (k : String) :
    lookupLast l k = none ↔ k ∉ l.map Prod.fst := by
  induction l with
  | nil => simp [lookupLast]
  | cons p ps ih =>
    rw [lookupLast]
    cases hl : lookupLast ps k with
    | some v =>
      have : k ∈ ps.map Prod.fst := by
        by_contra hm
        rw [← ih] at hm
        rw [hm] at hl
        exact Option.noConfusion hl
      simp [this]
    | none =>
      have hnm : k ∉ ps.map Prod.fst := ih.1 hl
      by_cases h : p.1 = k
      · subst h; simp
      · have hk : ¬ k = p.1 := fun he => h he.symm
        simp [h, hk, hnm]

theorem lookupLast_mem (l : List (String × String)) (k v : String)
    (h : lookupLast l k = some v) : (k, v) ∈ l := by
  induction l with
  | nil => simp [lookupLast] at h
  | cons p ps ih =>
    rw [lookupLast] at h
    cases hl : lookupLast ps k with
    | some w =>
      rw [hl] at h
      cases h
      exact List.mem_cons_of_mem _ (ih hl)
    | none =>
      rw [hl] at h
      by_cases hk : p.1 = k
      · rw [if_pos hk] at h
        cases h
        have hp : (k, p.2) = p := by
          cases p with
          | mk a b => rw [← hk]
        rw [hp]
        exact List.mem_cons_self p ps
      · rw [if_neg hk] at h
        exact Option.noConfusion h

theorem dlookup_of_mem_nodup (l : List (String × String)) (k v : String)
    (hn : (l.map Prod.fst).Nodup) (hm : (k, v) ∈ l) : dlookup l k = some v := by
  induction l with
  | nil => simp at hm
  | cons p ps ih =>
    simp only [List.map_cons, List.nodup_cons] at hn
    rcases List.mem_cons.1 hm with h | h
    · subst h; simp [dlookup]
    · have hk : ¬ p.1 = k := by
        intro he
        exact hn.1 (he ▸ (List.mem_map_of_mem Prod.fst h))
      simp [dlookup, hk, ih hn.2 h]

theorem lookupLast_eq_dlookup (l : List (String × String)) (k : String)
    (hn : (l.map Prod.fst).Nodup) : lookupLast l k = dlookup l k := by
  induction l with
  | nil => rfl
  | cons p ps ih =>
    simp only [List.map_cons, List.nodup_cons] at hn
    rw [lookupLast, ih hn.2]
    cases hl : dlookup ps k with
    | some v =>
      have hmem : k ∈ ps.map Prod.fst := by
        by_contra hm
        rw [(dlookup_eq_none ps k).2 hm] at hl
        exact Option.noConfusion hl
      have hk : ¬ p.1 = k := fun he => hn.1 (he ▸ hmem)
      simp [dlookup, hk, hl]
    | none =>
      simp [dlookup, hl]

theorem lookupLast_append (l1 l2 : List (String × String)) (k : String) :
    lookupLast (l1 ++ l2) k = oalt (lookupLast l2 k) (lookupLast l1 k) := by
  induction l1 with
  | nil => simp [lookupLast]; cases lookupLast l2 k <;> rfl
  | cons p ps ih =>
    rw [List.cons_append, lookupLast, ih, lookupLast]
    cases lookupLast l2 k with
    | some v => rfl
    | none => rfl

-- ===== helper lemmas: string order and min =====================

theorem lexLt_irrefl (l : List Char) : lexLt l l = false := by
  induction l with
  | nil => rfl
  | cons a as ih => simp [lexLt, ih]

theorem lexLt_trans (a b c : List Char) (h1 : lexLt a b = true)
    (h2 : lexLt b c = true) : lexLt a c = true := by
  induction a generalizing b c with
  | nil =>
    cases b with
    | nil => simp [lexLt] at h1
    | cons y ys =>
      cases c with
      | nil => simp [lexLt] at h2
      | cons z zs => rfl
  | cons x xs ih =>
    cases b with
    | nil => simp [lexLt] at h1
    | cons y ys =>
      cases c with
      | nil => simp [lexLt] at h2
      | cons z zs =>
        simp only [lexLt, Bool.or_eq_true, Bool.and_eq_true, decide_eq_true_eq,
          beq_iff_eq] at h1 h2 ⊢
        rcases h1 with h1 | ⟨he1, hr1⟩
        · rcases h2 with h2 | ⟨he2, hr2⟩
          · exact Or.inl (by omega)
          · exact Or.inl (by omega)
        · rcases h2 with h2 | ⟨he2, hr2⟩
          · exact Or.inl (by omega)
          · exact Or.inr ⟨by omega, ih ys zs hr1 hr2⟩

theorem lexLt_false_trans (a b c : List Char) (h1 : lexLt a b = false)
    (h2 : lexLt b c = false) : lexLt a c = false := by
  induction a generalizing b c with
  | nil =>
    cases c with
    | nil => rfl
    | cons z zs =>
      cases b with
      | nil => simp [lexLt] at h2
      | cons y ys => simp [lexLt] at h1
  | cons x xs ih =>
    cases c with
    | nil => rfl
    | cons z zs =>
      cases b with
      | nil => simp [lexLt] at h2
      | cons y ys =>
        simp only [lexLt, Bool.or_eq_false_iff, Bool.and_eq_false_iff,
          decide_eq_false_iff_not, beq_eq_false_iff_ne, ne_eq] at h1 h2 ⊢
        rcases h1 with ⟨hn1, he1⟩
        rcases h2 with ⟨hn2, he2⟩
        refine ⟨by omega, ?_⟩
        rcases he1 with he1 | hr1
        · exact Or.inl (by omega)
        · rcases he2 with he2 | hr2
          · exact Or.inl (by omega)
          · by_cases hxz : x.toNat = z.toNat
            · have hxy : x.toNat = y.toNat := by omega
              exact Or.inr (ih ys zs hr1 hr2)
            · exact Or.inl hxz

theorem strLt_irrefl (s : String) : strLt s s = false := lexLt_irrefl s.data

theorem strLt_trans (a b c : String) (h1 : strLt a b = true)
    (h2 : strLt b c = true) : strLt a c = true :=
  lexLt_trans a.data b.data c.data h1 h2

theorem strLt_false_trans (a b c : String) (h1 : strLt a b = false)
    (h2 : strLt b c = false) : strLt a c = false :=
  lexLt_false_trans a.data b.data c.data h1 h2

theorem pyminFold_mem (x : String) (xs : List String) :
    pyminFold x xs ∈ x :: xs := by
  induction xs generalizing x with
  | nil => simp [pyminFold]
  | cons y ys ih =>
    have hstep : pyminFold x (y :: ys) = pyminFold (if strLt y x then y else x) ys := by
      simp [pyminFold]
    rw [hstep]
    rcases List.mem_cons.1 (ih (if strLt y x then y else x)) with h | h
    · by_cases hc : strLt y x = true
      · simp only [hc, if_true] at h ⊢
        rw [h]
        exact List.mem_cons_of_mem _ (List.mem_cons_self _ _)
      · rw [Bool.not_eq_true] at hc
        simp only [hc, Bool.false_eq_true, if_false] at h ⊢
        rw [h]
        exact List.mem_cons_self _ _
    · exact List.mem_cons_of_mem _ (List.mem_cons_of_mem _ h)

theorem pyminFold_min (x : String) (xs : List String) :
    ∀ y ∈ x :: xs, strLt y (pyminFold x xs) = false := by
  induction xs generalizing x with
  | nil =>
    intro y hy
    rcases List.mem_cons.1 hy with h | h
    · rw [h]; exact strLt_irrefl _
    · simp at h
  | cons z zs ih =>
    intro y hy
    have hstep : pyminFold x (z :: zs) = pyminFold (if strLt z x then z else x) zs := by
      simp [pyminFold]
    rw [hstep]
    by_cases hc : strLt z x = true
    · rw [hc]
      simp only [if_true]
      have hz : strLt z (pyminFold z zs) = false := ih z z (List.mem_cons_self _ _)
      rcases List.mem_cons.1 hy with h | h
      · subst h
        cases hx : strLt y (pyminFold z zs) with
        | false => rfl
        | true => exact absurd (strLt_trans z y _ hc hx) (by rw [hz]; intro hcon; exact Bool.noConfusion hcon)
      · rcases List.mem_cons.1 h with h2 | h2
        · subst h2; exact hz
        · exact ih z y (List.mem_cons_of_mem _ h2)
    · rw [Bool.not_eq_true] at hc
      rw [hc]
      simp only [Bool.false_eq_true, if_false]
      have hx : strLt x (pyminFold x zs) = false := ih x x (List.mem_cons_self _ _)
      rcases List.mem_cons.1 hy with h | h
      · subst h; exact hx
      · rcases List.mem_cons.1 h with h2 | h2
        · subst h2; exact strLt_false_trans y x _ hc hx
        · exact ih x y (List.mem_cons_of_mem _ h2)

theorem pymin_spec (l : List String) (h : l ≠ []) :
    ∃ m, pymin l = some m ∧ m ∈ l ∧ ∀ y ∈ l, strLt y m = false := by
  cases l with
  | nil => exact absurd rfl h
  | cons x xs =>
    exact ⟨pyminFold x xs, rfl, pyminFold_mem x xs, pyminFold_min x xs⟩

-- ===== helper lemmas: optional map =============================

theorem omap_eq_none (f : α → Option β) (xs : List α) (x : α)
    (hx : x ∈ xs) (hfx : f x = none) : omap f xs = none := by
  induction xs with
  | nil => simp at hx
  | cons z zs ih =>
    rcases List.mem_cons.1 hx with h | h
    · subst h
      simp [omap, hfx]
    · cases hfz : f z with
      | none => simp [omap, hfz]
      | some w => simp [omap, hfz, ih h]

theorem omap_some_mem (f : α → Option β) (xs : List α) (ys : List β)
    (h : omap f xs = some ys) : ∀ y ∈ ys, ∃ x ∈ xs, f x = some y := by
  induction xs generalizing ys with
  | nil =>
    rw [omap] at h
    cases h
    intro y hy
    simp at hy
  | cons z zs ih =>
    rw [omap] at h
    cases hfz : f z with
    | none => rw [hfz] at h; exact Option.noConfusion h
    | some w =>
      rw [hfz] at h
      cases hzs : omap f zs with
      | none => rw [hzs] at h; exact Option.noConfusion h
      | some ws =>
        rw [hzs] at h
        cases h
        intro y hy
        rcases List.mem_cons.1 hy with hh | hh
        · exact ⟨z, List.mem_cons_self _ _, hh ▸ hfz⟩
        · rcases ih ws hzs y hh with ⟨x, hx1, hx2⟩
          exact ⟨x, List.mem_cons_of_mem _ hx1, hx2⟩

theorem omap_some_forall (f : α → Option β) (xs : List α) (ys : List β)
    (h : omap f xs = some ys) : ∀ x ∈ xs, ∃ y ∈ ys, f x = some y := by
  induction xs generalizing ys with
  | nil => intro x hx; simp at hx
  | cons z zs ih =>
    rw [omap] at h
    cases hfz : f z with
    | none => rw [hfz] at h; exact Option.noConfusion h
    | some w =>
      rw [hfz] at h
      cases hzs : omap f zs with
      | none => rw [hzs] at h; exact Option.noConfusion h
      | some ws =>
        rw [hzs] at h
        cases h
        intro x hx
        rcases List.mem_cons.1 hx with hh | hh
        · exact ⟨w, List.mem_cons_self _ _, hh ▸ hfz⟩
        · rcases ih ws hzs x hh with ⟨y, hy1, hy2⟩
          exact ⟨y, List.mem_cons_of_mem _ hy1, hy2⟩

theorem omap_some_of_forall (f : α → Option β) (xs : List α)
    (h : ∀ x ∈ xs, ∃ y, f x = some y) : ∃ ys, omap f xs = some ys := by
  induction xs with
  | nil => exact ⟨[], rfl⟩
  | cons z zs ih =>
    rcases h z (List.mem_cons_self _ _) with ⟨w, hw⟩
    rcases ih (fun x hx => h x (List.mem_cons_of_mem _ hx)) with ⟨ws, hws⟩
    exact ⟨w :: ws, by rw [omap, hw, hws]⟩

theorem omap_ne_nil (f : α → Option β) (xs : List α) (ys : List β)
    (h : omap f xs = some ys) (hne : xs ≠ []) : ys ≠ [] := by
  cases xs with
  | nil => exact absurd rfl hne
  | cons z zs =>
    rw [omap] at h
    cases hfz : f z with
    | none => rw [hfz] at h; exact Option.noConfusion h
    | some w =>
      rw [hfz] at h
      cases hzs : omap f zs with
      | none => rw [hzs] at h; exact Option.noConfusion h
      | some ws =>
        rw [hzs] at h
        cases h
        exact List.cons_ne_nil _ _

-- ===== helper lemmas: the leaf test and leaves =================

theorem isLeafItem_str (s : String) : isLeafItem (Item.str s) = (s.length == 2) := by
  cases s with
  | mk l =>
    cases l with
    | nil => rfl
    | cons a t =>
      cases t with
      | nil => rfl
      | cons b u =>
        cases u with
        | nil => rfl
        | cons c w => rfl

theorem isLeafItem_pair (a b : Item) :
    isLeafItem (Item.tup [a, b]) = (isStr a && isStr b) := rfl

theorem isLeafItem_shape (par : Item) :
    isLeafItem par = true ↔
      (∃ a b, par = Item.tup [Item.str a, Item.str b]) ∨
      (∃ s, par = Item.str s ∧ s.length = 2) := by
  cases par with
  | str s =>
    rw [isLeafItem_str]
    constructor
    · intro h
      exact Or.inr ⟨s, rfl, beq_iff_eq.1 h⟩
    · rintro (⟨a, b, h⟩ | ⟨t, ht, hlen⟩)
      · exact Item.noConfusion h
      · cases ht
        exact beq_iff_eq.2 hlen
  | tup items =>
    constructor
    · intro h
      cases items with
      | nil => exact Bool.noConfusion h
      | cons x t =>
        cases t with
        | nil => exact Bool.noConfusion h
        | cons y u =>
          cases u with
          | nil =>
            rw [isLeafItem_pair, Bool.and_eq_true] at h
            cases x with
            | str a =>
              cases y with
              | str b => exact Or.inl ⟨a, b, rfl⟩
              | tup _ => exact Bool.noConfusion h.2
            | tup _ => exact Bool.noConfusion h.1
          | cons z w =>
            simp only [isLeafItem, pyLen, List.length_cons, Bool.and_eq_true,
              beq_iff_eq] at h
            omega
    · rintro (⟨a, b, h⟩ | ⟨t, ht, _⟩)
      · cases h; rfl
      · exact Item.noConfusion ht

theorem leavesItem_of_leaf (i : Item) (h : isLeafItem i = true) :
    leavesItem i = [(leafKey i, leafVal i)] := by
  cases i with
  | str s =>
    rw [isLeafItem_str] at h
    simp [leavesItem, h]
  | tup items => simp [leavesItem, h]

theorem goodList_cons (i : Item) (is : List Item) :
    goodList (i :: is) = true ↔ goodItem i = true ∧ goodList is = true := by
  show (goodItem i && goodList is) = true ↔ _
  rw [Bool.and_eq_true]

theorem goodItem_group (i : Item) (hg : goodItem i = true) (hnl : isLeafItem i = false) :
    ∃ items, i = Item.tup items ∧ goodList items = true := by
  cases i with
  | str s =>
    rw [isLeafItem_str] at hnl
    have h2 : (s.length == 2) = true := hg
    rw [hnl] at h2
    exact Bool.noConfusion h2
  | tup items =>
    refine ⟨items, rfl, ?_⟩
    have h2 : (isLeafItem (Item.tup items) || goodList items) = true := hg
    rw [hnl] at h2
    exact h2

theorem one_le_depthList (items : List Item) : 1 ≤ depthList items := by
  cases items with
  | nil => exact le_refl 1
  | cons i is =>
    show 1 ≤ 1 + depthItem i + depthList is
    omega

theorem lookupLast_cons (p : String × String) (ps : List (String × String)) (k : String) :
    lookupLast (p :: ps) k =
      match lookupLast ps k with
      | some v => some v
      | none => if p.1 = k then some p.2 else none := rfl

-- ===== the flattening characterisation =========================

theorem flattenGo_char_aux (n : Nat) :
    ∀ (items : List Item) (r : Dict), depthList items ≤ n →
      goodList items = true → (r.map Prod.fst).Nodup →
      ∃ d, flattenGo items r = some d ∧ (d.map Prod.fst).Nodup ∧
        ∀ k, dlookup d k = oalt (lookupLast (leavesList items) k) (dlookup r k) := by
  induction n with
  | zero =>
    intro items r hd _ _
    have := one_le_depthList items
    omega
  | succ n ih =>
    intro items r hd hg hr
    cases items with
    | nil =>
      refine ⟨r, rfl, hr, ?_⟩
      intro k
      show dlookup r k = oalt (lookupLast [] k) (dlookup r k)
      rfl
    | cons par rest =>
      have hdc : depthList (par :: rest) = 1 + depthItem par + depthList rest := rfl
      rw [hdc] at hd
      have hdr : depthList rest ≤ n := by omega
      rcases (goodList_cons par rest).1 hg with ⟨hgp, hgr⟩
      by_cases hleaf : isLeafItem par = true
      · have hstep : flattenGo (par :: rest) r =
            flattenGo rest (dinsert r (leafKey par) (leafVal par)) := by
          show (if isLeafItem par then _ else _) = _
          rw [if_pos hleaf]
        rcases ih rest (dinsert r (leafKey par) (leafVal par)) hdr hgr
            (nodup_keys_dinsert _ _ _ hr) with ⟨d, h1, h2, h3⟩
        refine ⟨d, by rw [hstep]; exact h1, h2, ?_⟩
        intro k
        rw [h3 k, dlookup_dinsert]
        have hleaves : leavesList (par :: rest) =
            (leafKey par, leafVal par) :: leavesList rest := by
          show leavesItem par ++ leavesList rest = _
          rw [leavesItem_of_leaf par hleaf]
          rfl
        rw [hleaves, lookupLast_cons]
        cases hl : lookupLast (leavesList rest) k with
        | some v => rfl
        | none =>
          by_cases hk : leafKey par = k
          · simp [oalt, hk]
          · simp [oalt, hk]
      · have hleaf2 : isLeafItem par = false := by rwa [Bool.not_eq_true] at hleaf
        rcases goodItem_group par hgp hleaf2 with ⟨items2, hpar, hgi⟩
        have hdi : depthList items2 ≤ n := by
          subst hpar
          have h5 : depthItem (Item.tup items2) = 1 + depthList items2 := rfl
          omega
        rcases ih items2 [] hdi hgi (by simp) with ⟨sub, hs1, hs2, hs3⟩
        have hinto : flattenInto par = some sub := by
          subst hpar
          exact hs1
        have hstep : flattenGo (par :: rest) r = flattenGo rest (dupdate r sub) := by
          show (if isLeafItem par then _ else _) = _
          rw [if_neg hleaf, hinto]
        rcases ih rest (dupdate r sub) hdr hgr (nodup_keys_dupdate _ _ hr) with ⟨d, h1, h2, h3⟩
        refine ⟨d, by rw [hstep]; exact h1, h2, ?_⟩
        intro k
        rw [h3 k, dlookup_dupdate]
        have hsub : lookupLast sub k = lookupLast (leavesList items2) k := by
          rw [lookupLast_eq_dlookup sub k hs2, hs3 k]
          show oalt _ (dlookup [] k) = _
          rw [show dlookup [] k = none from rfl, oalt_none_right]
        have hleaves : leavesList (par :: rest) = leavesList items2 ++ leavesList rest := by
          subst hpar
          show leavesItem (Item.tup items2) ++ leavesList rest = _
          have h6 : leavesItem (Item.tup items2) = leavesList items2 := by
            show (if isLeafItem (Item.tup items2) then _ else leavesList items2) = _
            rw [if_neg hleaf]
          rw [h6]
        rw [hleaves, lookupLast_append, oalt_assoc, hsub]

theorem flatten_char (path : List Item) (hg : goodList path = true) :
    ∃ d, _flatten_items_to_dict path = some d ∧ (d.map Prod.fst).Nodup ∧
      ∀ k, dlookup d k = lookupLast (leavesList path) k := by
  rcases flattenGo_char_aux (depthList path) path [] (le_refl _) hg (by simp)
    with ⟨d, h1, h2, h3⟩
  refine ⟨d, h1, h2, ?_⟩
  intro k
  rw [h3 k]
  show oalt _ (dlookup [] k) = _
  rw [show dlookup [] k = none from rfl, oalt_none_right]

-- ===== claim theorems ==========================================

/-- C8: `format_prefix` returns the empty string when brief mode is set;
otherwise in tuple mode it returns the context segment as ordered pairs
with both name and value uppercased; otherwise (text mode) it returns the
uppercased values of the context-segment entries excluding the first,
joined by single spaces. -/
theorem format_prefix_modes (o t : Bool) (path : List (String × String)) :
    ( format_prefix ⟨true, o, t⟩ path = Pfx.str "") ∧
    ( format_prefix ⟨false, o, true⟩ path =
        Pfx.tups (path.map (fun p => (p.1.toUpper, p.2.toUpper)))) ∧
    ( format_prefix ⟨false, o, false⟩ path =
        Pfx.str (String.intercalate " " ((path.drop 1).map (fun p => p.2.toUpper)))) :=
  ⟨rfl, rfl, rfl⟩

/-- C9: `format_match_tup` renders a (name, value) pair as the pair itself
in tuple mode, as just the value in tuple mode with names omitted, as
`name=value` with the value in quoted literal form in text mode, and as
just the quoted value in text mode with names omitted. -/
theorem format_match_tup_modes (b : Bool) (n v : String) :
    ( format_match_tup ⟨b, false, true⟩ (n, v) = PyVal.pair n v) ∧
    ( format_match_tup ⟨b, true, true⟩ (n, v) = PyVal.str v) ∧
    ( format_match_tup ⟨b, false, false⟩ (n, v) = PyVal.str (n ++ "=" ++ pyrepr v)) ∧
    ( format_match_tup ⟨b, true, false⟩ (n, v) = PyVal.str (pyrepr v)) :=
  ⟨rfl, rfl, rfl, rfl⟩

/-- C10: `get_exptime` depends only on the presence and values of the keys
`DATE-OBS`, `TIME-OBS` and `META.OBSERVATION.DATE`: two dictionaries that
agree on those three lookups produce the same result. -/
theorem get_exptime_depends_only_on_keys (d1 d2 : Dict)
    (h1 : dlookup d1 "DATE-OBS" = dlookup d2 "DATE-OBS")
    (h2 : dlookup d1 "TIME-OBS" = dlookup d2 "TIME-OBS")
    (h3 : dlookup d1 "META.OBSERVATION.DATE" = dlookup d2 "META.OBSERVATION.DATE") :
    get_exptime d1 = get_exptime d2 := by
  simp [get_exptime, pyContains, pyGet, h1, h2, h3]

/-- Witness for C10 at two concrete dictionaries that agree on the three
exptime keys but differ in order and extra keys. -/
theorem get_exptime_depends_only_on_keys_witness :
    dlookup d10a "DATE-OBS" = dlookup d10b "DATE-OBS" ∧
    dlookup d10a "TIME-OBS" = dlookup d10b "TIME-OBS" ∧
    dlookup d10a "META.OBSERVATION.DATE" = dlookup d10b "META.OBSERVATION.DATE" ∧
    get_exptime d10a = get_exptime d10b :=
  ⟨by decide, by decide, by decide,
   get_exptime_depends_only_on_keys d10a d10b (by decide) (by decide) (by decide)⟩

/-- C2 counterexample: with `DATE-OBS = 1900-01-01` and
`TIME-OBS = 00:00:00` both present, `get_exptime` returns the sentinel
string even though a date and time pair is present, so returning the
sentinel is not equivalent to the absence of the fields. -/
theorem get_exptime_sentinel_iff_cex :
    ¬ (get_exptime d2c = "1900-01-01 00:00:00" ↔
        ((dlookup d2c "DATE-OBS" = none ∨ dlookup d2c "TIME-OBS" = none) ∧
          dlookup d2c "META.OBSERVATION.DATE" = none)) := by
  decide

/-- C2 (amended): `get_exptime` returns the sentinel `1900-01-01 00:00:00`
exactly when no date+time pair and no composite date field is present, or
when the fields that are present themselves spell out the sentinel; when
both a date and a time are present it returns `date ++ " " ++ time`. -/
theorem get_exptime_sentinel_characterisation (d : Dict) :
    (get_exptime d = "1900-01-01 00:00:00" ↔
      (((dlookup d "DATE-OBS" = none ∨ dlookup d "TIME-OBS" = none) ∧
          dlookup d "META.OBSERVATION.DATE" = none) ∨
        (∃ a b, dlookup d "DATE-OBS" = some a ∧ dlookup d "TIME-OBS" = some b ∧
          a ++ " " ++ b = "1900-01-01 00:00:00") ∨
        ((dlookup d "DATE-OBS" = none ∨ dlookup d "TIME-OBS" = none) ∧
          dlookup d "META.OBSERVATION.DATE" = some "1900-01-01 00:00:00"))) ∧
    (∀ a b, dlookup d "DATE-OBS" = some a → dlookup d "TIME-OBS" = some b →
      get_exptime d = a ++ " " ++ b) := by
  refine ⟨?_, ?_⟩
  · cases hd : dlookup d "DATE-OBS" with
    | some a =>
      cases ht : dlookup d "TIME-OBS" with
      | some b => simp [get_exptime, pyContains, pyGet, hd, ht]
      | none =>
        cases hm : dlookup d "META.OBSERVATION.DATE" with
        | some m => simp [get_exptime, pyContains, pyGet, hd, ht, hm]
        | none => simp [get_exptime, pyContains, pyGet, hd, ht, hm]
    | none =>
      cases hm : dlookup d "META.OBSERVATION.DATE" with
      | some m => simp [get_exptime, pyContains, pyGet, hd, hm]
      | none => simp [get_exptime, pyContains, pyGet, hd, hm]
  · intro a b ha hb
    simp [get_exptime, pyContains, pyGet, ha, hb]

/-- Witness for C2 at a concrete dictionary with a date and a time. -/
theorem get_exptime_sentinel_characterisation_witness :
    dlookup d2w "DATE-OBS" = some "2006-07-04" ∧
    dlookup d2w "TIME-OBS" = some "11:32:35" ∧
    get_exptime d2w = "2006-07-04" ++ " " ++ "11:32:35" :=
  ⟨by decide, by decide,
   (get_exptime_sentinel_characterisation d2w).2 "2006-07-04" "11:32:35"
     (by decide) (by decide)⟩

/-- C3: for a well-formed match path, flattening succeeds and the key set
of the produced dictionary is exactly the set of leaf parameter names
reachable in the path, and each key is bound to the value of the last leaf
carrying that name in depth-first traversal order. -/
theorem flatten_keys_and_last_write (path : List Item) (hg : goodList path = true) :
    ∃ d, _flatten_items_to_dict path = some d ∧
      (∀ k, k ∈ d.map Prod.fst ↔ k ∈ (leavesList path).map Prod.fst) ∧
      (∀ k, dlookup d k = lookupLast (leavesList path) k) := by
  rcases flatten_char path hg with ⟨d, h1, h2, h3⟩
  refine ⟨d, h1, ?_, h3⟩
  intro k
  constructor
  · intro hk
    by_contra hnk
    have h4 : lookupLast (leavesList path) k = none := (lookupLast_eq_none _ _).2 hnk
    have h5 : dlookup d k = none := by rw [h3 k, h4]
    exact ((dlookup_eq_none d k).1 h5) hk
  · intro hk
    by_contra hnk
    have h5 : dlookup d k = none := (dlookup_eq_none d k).2 hnk
    rw [h3 k] at h5
    exact ((lookupLast_eq_none _ _).1 h5) hk

/-- Witness for C3 at a path where the name `A` occurs in two leaves: the
nested, later leaf wins. -/
theorem flatten_keys_and_last_write_witness :
    goodList wpath3 = true ∧
    _flatten_items_to_dict wpath3 = some [("A", "2"), ("B", "3")] ∧
    (∃ d, _flatten_items_to_dict wpath3 = some d ∧
      (∀ k, k ∈ d.map Prod.fst ↔ k ∈ (leavesList wpath3).map Prod.fst) ∧
      (∀ k, dlookup d k = lookupLast (leavesList wpath3) k)) :=
  ⟨by decide, by decide, flatten_keys_and_last_write wpath3 (by decide)⟩

/-- C4: an element is recorded as a leaf exactly when it has Python length
two and both of its elements are strings (a two-element tuple of strings,
or a two-character string whose elements are its characters); every other
element is flattened recursively and merged into the same dictionary. -/
theorem leaf_test_shape_and_merge :
    (∀ par : Item, isLeafItem par = true ↔
      (∃ a b, par = Item.tup [Item.str a, Item.str b]) ∨
      (∃ s, par = Item.str s ∧ s.length = 2)) ∧
    (∀ (par : Item) (rest : List Item) (r : Dict), isLeafItem par = true →
      flattenGo (par :: rest) r = flattenGo rest (dinsert r (leafKey par) (leafVal par))) ∧
    (∀ (par : Item) (rest : List Item) (r : Dict), isLeafItem par = false →
      flattenGo (par :: rest) r =
        match flattenInto par with
        | none => none
        | some sub => flattenGo rest (dupdate r sub)) := by
  refine ⟨isLeafItem_shape, ?_, ?_⟩
  · intro par rest r h
    show (if isLeafItem par then _ else _) = _
    rw [if_pos h]
  · intro par rest r h
    show (if isLeafItem par then _ else _) = _
    rw [if_neg (by rw [h]; exact Bool.noConfusion)]

/-- Witness for C4 at a concrete leaf pair and a concrete nested group. -/
theorem leaf_test_shape_and_merge_witness :
    isLeafItem (mkPair "DETECTOR" "HRC") = true ∧
    flattenGo [mkPair "DETECTOR" "HRC"] [] = flattenGo [] (dinsert [] "DETECTOR" "HRC") ∧
    isLeafItem (Item.tup [mkPair "A" "1"]) = false ∧
    flattenGo [Item.tup [mkPair "A" "1"]] [] =
      (match flattenInto (Item.tup [mkPair "A" "1"]) with
       | none => none
       | some sub => flattenGo [] (dupdate [] sub)) :=
  ⟨by decide, leaf_test_shape_and_merge.2.1 (mkPair "DETECTOR" "HRC") [] [] (by decide),
   by decide, leaf_test_shape_and_merge.2.2 (Item.tup [mkPair "A" "1"]) [] [] (by decide)⟩

/-- C5 counterexample: flattening performs no lower-casing; a context
segment whose parameter name is written `OBSERVATORY` is recorded under
exactly that name, and no `observatory` key exists in the result. -/
theorem flatten_context_lowercase_cex :
    _flatten_items_to_dict wpath5 =
      some [("OBSERVATORY", "HST"), ("instrument", "acs"), ("DETECTOR", "HRC"),
            ("DATE-OBS", "2006-07-04"), ("TIME-OBS", "11:32:35")] ∧
    dlookup ((_flatten_items_to_dict wpath5).getD []) "observatory" = none ∧
    dlookup ((_flatten_items_to_dict wpath5).getD []) "OBSERVATORY" = some "HST" := by
  refine ⟨by decide, by decide, by decide⟩

/-- C5 (amended): the flattener preserves the original casing of every
parameter name from every segment: each entry of the flattened dictionary
occurs verbatim as a leaf pair of the path; context-segment names appear
lower-case in the result exactly when the store supplies them lower-case. -/
theorem flatten_preserves_name_casing (path : List Item) (hg : goodList path = true) :
    ∃ d, _flatten_items_to_dict path = some d ∧ ∀ p ∈ d, p ∈ leavesList path := by
  rcases flatten_char path hg with ⟨d, h1, h2, h3⟩
  refine ⟨d, h1, ?_⟩
  intro p hp
  have h4 : dlookup d p.1 = some p.2 := dlookup_of_mem_nodup d p.1 p.2 h2 hp
  rw [h3 p.1] at h4
  exact lookupLast_mem _ _ _ h4

/-- Witness for C5 at the path whose context segment is upper-cased. -/
theorem flatten_preserves_name_casing_witness :
    goodList wpath5 = true ∧
    (∃ d, _flatten_items_to_dict wpath5 = some d ∧ ∀ p ∈ d, p ∈ leavesList wpath5) :=
  ⟨by decide, flatten_preserves_name_casing wpath5 (by decide)⟩

/-- C6: `get_minimum_exptime` yields no value (the minimum of an empty
sequence raises) when the reference list is empty, and when any given
reference resolves to zero match paths. -/
theorem min_exptime_empty_inputs_error :
    (∀ context : RContext, get_minimum_exptime context [] = none) ∧
    (∀ (context : RContext) (references : List String) (r : String),
      r ∈ references → context r = [] →
      get_minimum_exptime context references = none) := by
  constructor
  · intro context; rfl
  · intro context references r hmem hempty
    have h0 : _get_minimum_exptime context r = none := by
      unfold _get_minimum_exptime find_match_paths_as_dict find_full_match_paths
      rw [hempty]
      rfl
    unfold get_minimum_exptime
    rw [omap_eq_none _ _ r hmem h0]

/-- Witness for C6: a context with no match paths yields no value, and the
empty reference list yields no value. -/
theorem min_exptime_empty_inputs_error_witness :
    ("x" ∈ ["x"]) ∧ wctx6 "x" = [] ∧
    get_minimum_exptime wctx6 ["x"] = none ∧
    get_minimum_exptime wctx6 [] = none :=
  ⟨by decide, rfl, min_exptime_empty_inputs_error.2 wctx6 ["x"] "x" (by decide) rfl,
   min_exptime_empty_inputs_error.1 wctx6⟩

/-- C1: for a non-empty reference list in which every reference resolves
to at least one well-formed match path, `get_minimum_exptime` returns a
value that is one of the `get_exptime` values of the flattened match paths
of the given references, and no such value is lexicographically smaller
than it: it is exactly the lexicographically smallest of them. -/
theorem get_minimum_exptime_is_least (context : RContext) (references : List String)
    (hne : references ≠ [])
    (hpaths : ∀ r ∈ references, context r ≠ [])
    (hgood : ∀ r ∈ references, ∀ p ∈ context r, goodList p = true) :
    ∃ m, get_minimum_exptime context references = some m ∧
      (∃ r ∈ references, ∃ p ∈ context r, ∃ d, _flatten_items_to_dict p = some d ∧
        m = get_exptime d) ∧
      (∀ r ∈ references, ∀ p ∈ context r, ∀ d, _flatten_items_to_dict p = some d →
        strLt (get_exptime d) m = false) := by
  have hper : ∀ r ∈ references, ∃ mr, _get_minimum_exptime context r = some mr ∧
      (∃ p ∈ context r, ∃ d, _flatten_items_to_dict p = some d ∧ mr = get_exptime d) ∧
      (∀ p ∈ context r, ∀ d, _flatten_items_to_dict p = some d →
        strLt (get_exptime d) mr = false) := by
    intro r hr
    have hfl : ∀ p ∈ context r, ∃ d, _flatten_items_to_dict p = some d := by
      intro p hp
      rcases flatten_char p (hgood r hr p hp) with ⟨d, h1, _, _⟩
      exact ⟨d, h1⟩
    rcases omap_some_of_forall _ _ hfl with ⟨ds, hds⟩
    have hunf : _get_minimum_exptime context r = pymin (ds.map get_exptime) := by
      unfold _get_minimum_exptime find_match_paths_as_dict find_full_match_paths
      rw [hds]
    have hdsne : ds ≠ [] := omap_ne_nil _ _ _ hds (hpaths r hr)
    have hmapne : ds.map get_exptime ≠ [] := by
      intro h
      exact hdsne (List.map_eq_nil_iff.1 h)
    rcases pymin_spec _ hmapne with ⟨mr, hm1, hm2, hm3⟩
    refine ⟨mr, by rw [hunf]; exact hm1, ?_, ?_⟩
    · rcases List.mem_map.1 hm2 with ⟨d, hd1, hd2⟩
      rcases omap_some_mem _ _ _ hds d hd1 with ⟨p, hp1, hp2⟩
      exact ⟨p, hp1, d, hp2, hd2.symm⟩
    · intro p hp d hd
      rcases omap_some_forall _ _ _ hds p hp with ⟨d2, hd21, hd22⟩
      have he : d2 = d := by
        rw [hd] at hd22
        exact (Option.some.inj hd22).symm
      subst he
      exact hm3 _ (List.mem_map_of_mem get_exptime hd21)
  have hms : ∀ r ∈ references, ∃ mr, _get_minimum_exptime context r = some mr := by
    intro r hr
    rcases hper r hr with ⟨mr, h1, _, _⟩
    exact ⟨mr, h1⟩
  rcases omap_some_of_forall _ _ hms with ⟨ms, hmsall⟩
  have hunf : get_minimum_exptime context references = pymin ms := by
    unfold get_minimum_exptime
    rw [hmsall]
  have hmsne : ms ≠ [] := omap_ne_nil _ _ _ hmsall hne
  rcases pymin_spec ms hmsne with ⟨m, h1, h2, h3⟩
  refine ⟨m, by rw [hunf]; exact h1, ?_, ?_⟩
  · rcases omap_some_mem _ _ _ hmsall m h2 with ⟨r, hr1, hr2⟩
    rcases hper r hr1 with ⟨mr, hmr1, hmr2, _⟩
    have he : mr = m := by
      rw [hmr1] at hr2
      exact Option.some.inj hr2
    subst he
    rcases hmr2 with ⟨p, hp1, d, hd1, hd2⟩
    exact ⟨r, hr1, p, hp1, d, hd1, hd2⟩
  · intro r hr p hp d hd
    rcases hper r hr with ⟨mr, hmr1, _, hmr3⟩
    have hvr : strLt (get_exptime d) mr = false := hmr3 p hp d hd
    rcases omap_some_forall _ _ _ hmsall r hr with ⟨mr2, hm21, hm22⟩
    have he : mr2 = mr := by
      rw [hmr1] at hm22
      exact (Option.some.inj hm22).symm
    subst he
    exact strLt_false_trans _ _ _ hvr (h3 mr2 hm21)

/-- Witness for C1 at a context resolving two references with useafter
dates 2006 and 2005: the minimum is the 2005 timestamp. -/
theorem get_minimum_exptime_is_least_witness :
    wrefs1 ≠ [] ∧ (∀ r ∈ wrefs1, wctx1 r ≠ []) ∧
    (∀ r ∈ wrefs1, ∀ p ∈ wctx1 r, goodList p = true) ∧
    get_minimum_exptime wctx1 wrefs1 = some "2005-01-01 00:00:00" ∧
    (∃ m, get_minimum_exptime wctx1 wrefs1 = some m ∧
      (∃ r ∈ wrefs1, ∃ p ∈ wctx1 r, ∃ d, _flatten_items_to_dict p = some d ∧
        m = get_exptime d) ∧
      (∀ r ∈ wrefs1, ∀ p ∈ wctx1 r, ∀ d, _flatten_items_to_dict p = some d →
        strLt (get_exptime d) m = false)) := by
  have hp : ∀ r ∈ wrefs1, wctx1 r ≠ [] := by
    intro r hr
    simp only [wrefs1, List.mem_cons, List.not_mem_nil, or_false] at hr
    rcases hr with rfl | rfl
    · simp [wctx1]
    · simp [wctx1]
  exact ⟨by decide, hp, by decide, by decide,
    get_minimum_exptime_is_least wctx1 wrefs1 (by decide) hp (by decide)⟩

theorem map_pyvalString_fmt (o b : Bool) (segs : List (List (String × String))) :
    (segs.flatMap (fun sec => sec.map (fun t => format_match_tup ⟨b, o, false⟩ t))).map
        pyvalString =
      segs.flatMap (fun sec => sec.map (fun t =>
        if o then pyrepr t.2 else t.1 ++ "=" ++ pyrepr t.2)) := by
  rw [List.map_flatMap]
  congr 1
  funext sec
  rw [List.map_map]
  congr 1
  funext t
  cases o <;> rfl

/-- C7 counterexample: in text mode with brief and omitted names the
rendering is not exactly the quoted leaf values joined by spaces: the
empty context representation is still joined with the separator, so the
line starts with one extra space. -/
theorem find_match_tuples_brief_omit_cex :
    find_match_tuples ⟨true, true, false⟩ wpctx7 "lc41311jj_pfl.fits" =
      [Rendering.text (" " ++ pyrepr "HRC")] ∧
    find_match_tuples ⟨true, true, false⟩ wpctx7 "lc41311jj_pfl.fits" ≠
      [Rendering.text (pyrepr "HRC")] := by
  exact ⟨by decide, by decide⟩

/-- C7 (amended): in text mode each match path renders as the context
representation and the space-joined criterion strings joined by one space;
with brief and omitted names set, that degenerates to a single leading
space followed by the quoted leaf values joined by single spaces. -/
theorem find_match_tuples_text_assembly (b o : Bool) (context : PCtx) (reffile : String) :
    (find_match_tuples ⟨b, o, false⟩ context reffile =
      (context reffile).map (fun path =>
        Rendering.text
          ((if b then ""
            else String.intercalate " " (((path.headD []).drop 1).map (fun t => t.2.toUpper)))
            ++ " " ++
            String.intercalate " " ((path.drop 1).flatMap (fun sec => sec.map (fun t =>
              if o then pyrepr t.2 else t.1 ++ "=" ++ pyrepr t.2)))))) ∧
    (find_match_tuples ⟨true, true, false⟩ context reffile =
      (context reffile).map (fun path =>
        Rendering.text
          (" " ++ String.intercalate " " ((path.drop 1).flatMap (fun sec =>
            sec.map (fun t => pyrepr t.2)))))) := by
  constructor
  · unfold find_match_tuples
    refine List.map_congr_left ?_
    intro path _
    show Rendering.text
        (pfxString ( format_prefix ⟨b, o, false⟩ (path.headD [])) ++ " " ++
          String.intercalate " "
            (((path.drop 1).flatMap (fun sec => sec.map (fun t =>
              format_match_tup ⟨b, o, false⟩ t))).map pyvalString)) = _
    have hpfx : pfxString ( format_prefix ⟨b, o, false⟩ (path.headD [])) =
        (if b then ""
         else String.intercalate " " (((path.headD []).drop 1).map (fun t => t.2.toUpper))) := by
      cases b <;> rfl
    rw [hpfx, map_pyvalString_fmt]
  · unfold find_match_tuples
    refine List.map_congr_left ?_
    intro path _
    show Rendering.text
        (pfxString ( format_prefix ⟨true, true, false⟩ (path.headD [])) ++ " " ++
          String.intercalate " "
            (((path.drop 1).flatMap (fun sec => sec.map (fun t =>
              format_match_tup ⟨true, true, false⟩ t))).map pyvalString)) = _
    rw [map_pyvalString_fmt]
    rfl
